import Mathlib

/-!
Shallow embedding of `src/memory.rs` (crate `rust-vfs`, module `memory`):
an ephemeral in-memory file system.

Modelling choices:
* Bytes are `Nat` (the code never computes on byte values, only moves them).
* `DataHandle` (an `Arc<RwLock<Vec<u8>>>` shared buffer) is modelled by an
  index into a store `List (List Nat)`; sharing a `DataHandle` is sharing the
  index.  Fresh allocation (`DataHandle::new`) appends an empty buffer at the
  end of the store.
* `HashMap<String, FsNode>` is modelled by an association list with the
  `get_mut` / `entry().or_insert_with` operations (`getChild`, `setChild`,
  insertion by appending); reachable trees have unique keys, and all lemmas
  below are stated for arbitrary lists using first-match semantics, which
  agrees with a map on unique-key lists.
* A Rust panic (`unwrap` of `None`/`Err`, out-of-range slicing) is modelled
  by `none` in an `Option` result.
-/

/-- `NodeKind` from memory.rs: a node is a Directory or a File. -/
inductive NodeKind where
  | Directory
  | File
deriving DecidableEq, Repr

/-- `FsNode` from memory.rs: kind, children map (association list), and the
node's shared data buffer (`DataHandle`), modelled as an index into the
buffer store. -/
inductive FsNode where
  | mk : NodeKind → List (String × FsNode) → Nat → FsNode

/-- Projection: the node's kind. -/
def FsNode.kind : FsNode → NodeKind
  | .mk k _ _ => k

/-- Projection: the node's children. -/
def FsNode.children : FsNode → List (String × FsNode)
  | .mk _ cs _ => cs

/-- Projection: the node's buffer index (its `DataHandle`). -/
def FsNode.data : FsNode → Nat
  | .mk _ _ d => d

@[simp] theorem FsNode.kind_mk (k : NodeKind) (cs : List (String × FsNode))
    (d : Nat) : (FsNode.mk k cs d).kind = k := rfl

@[simp] theorem FsNode.children_mk (k : NodeKind) (cs : List (String × FsNode))
    (d : Nat) : (FsNode.mk k cs d).children = cs := rfl

@[simp] theorem FsNode.data_mk (k : NodeKind) (cs : List (String × FsNode))
    (d : Nat) : (FsNode.mk k cs d).data = d := rfl

/-- `HashMap::get_mut` on the children map: first entry with the given key. -/
def getChild : List (String × FsNode) → String → Option FsNode
  | [], _ => none
  | (k, v) :: rest, name => if k = name then some v else getChild rest name

/-- Writing back a mutated child: replace the first entry with the given key. -/
def setChild : List (String × FsNode) → String → FsNode → List (String × FsNode)
  | [], _, _ => []
  | (k, v) :: rest, name, n =>
      if k = name then (k, n) :: rest else (k, v) :: setChild rest name n

/-- `MemoryFile` from memory.rs: a handle holding a shared `DataHandle`
(buffer index) and a cursor `pos`. -/
structure MemFile where
  data : Nat
  pos : Nat
deriving DecidableEq, Repr

/-- The whole-filesystem state: the root node (`MemoryFSImpl.root`) together
with the store of all allocated shared buffers. -/
structure Sys where
  root : FsNode
  store : List (List Nat)

/-- `MemoryFS::new()`: a root directory with a fresh empty buffer. -/
def initSys : Sys := { root := FsNode.mk .Directory [] 0, store := [[]] }

/-- Rust `str::split('/')` on the char list of a path: splits at every `'/'`,
keeping empty pieces (`"".split` is `[""]`, `"/".split` is `["", ""]`). -/
def splitSlash : List Char → List (List Char)
  | [] => [[]]
  | c :: rest =>
      if c = '/' then [] :: splitSlash rest
      else
        match splitSlash rest with
        | [] => [[c]]
        | s :: ss => (c :: s) :: ss

/-- The component list used by `with_node` and `mkdir`:
`path.split("/")`, reversed, last popped (i.e. the first piece dropped),
then consumed from the back — overall: the split with its head dropped,
consumed left to right. -/
def pathComponents (p : String) : List String :=
  ((splitSlash p.data).map (fun cs => String.mk cs)).tail

/-- `MemoryPath::decompose_path`: `rsplitn(2, "/")` — split at the last `'/'`.
Returns `(parent?, leaf)`.  If the path has no `'/'`, parent is `none`.
An empty parent piece normalises to `"/"`; if the leaf piece is empty,
the result is `(none, parent)`. -/
def decomposePath (p : String) : Option String × String :=
  if p.data.contains '/' then
    let fname := (p.data.reverse.takeWhile (fun c => c ≠ '/')).reverse
    let parentRaw := ((p.data.reverse.dropWhile (fun c => c ≠ '/')).drop 1).reverse
    let parent := if parentRaw.isEmpty then "/" else String.mk parentRaw
    if fname.isEmpty then (none, parent) else (some parent, String.mk fname)
  else (none, p)

/-- `MemoryPath::parent`: the parent path, if any. -/
def parentPath (p : String) : Option String := (decomposePath p).1

/-- `MemoryPath::file_name`: always `Some` of the decomposed leaf. -/
def fileName (p : String) : Option String := some (decomposePath p).2

/-- `MemoryPath::push`: append a segment, inserting `"/"` unless the path
already ends with `'/'`. -/
def pushPath (p seg : String) : String :=
  if p.data.getLast? = some '/' then p ++ seg else p ++ "/" ++ seg

/-- `traverse_with` specialised to a non-mutating closure: descend from
`node` one component at a time, skipping empty components, failing (`none` =
NotFound) on a missing child, and return the node reached. -/
def findNode : List String → FsNode → Option FsNode
  | [], node => some node
  | c :: rest, node =>
      if c = "" then findNode rest node
      else
        match getChild node.children c with
        | some child => findNode rest child
        | none => none

/-- `traverse_with` from memory.rs: descend like `findNode`, apply `f` to the
node reached (possibly mutating it), write the mutated child back along the
path, and return the rebuilt tree together with `f`'s result. -/
def traverseWith {R : Type} (f : FsNode → FsNode × R) :
    List String → FsNode → Option (FsNode × R)
  | [], node => some (f node)
  | c :: rest, node =>
      if c = "" then traverseWith f rest node
      else
        match getChild node.children c with
        | some child =>
            match traverseWith f rest child with
            | some (child', r) =>
                some (FsNode.mk node.kind (setChild node.children c child') node.data, r)
            | none => none
        | none => none

/-- `traverse_mkdir` from memory.rs: descend consuming every component
(empty ones included), get-or-inserting a fresh empty Directory (with a
freshly allocated empty buffer) for each missing child.  Returns the rebuilt
tree and the extended buffer store; the Rust function's `Result` is always
`Ok`, so the model is total. -/
def traverseMkdir : List String → FsNode → List (List Nat) →
    FsNode × List (List Nat)
  | [], node, store => (node, store)
  | c :: rest, node, store =>
      match getChild node.children c with
      | some child =>
          let r := traverseMkdir rest child store
          (FsNode.mk node.kind (setChild node.children c r.1) node.data, r.2)
      | none =>
          let fresh := FsNode.mk .Directory [] store.length
          let r := traverseMkdir rest fresh (store ++ [[]])
          (FsNode.mk node.kind (node.children ++ [(c, r.1)]) node.data, r.2)

/-- The closure passed to `with_node` by `create`/`append`:
`node.children.entry(name).or_insert_with(FsNode::new_file)` followed by
cloning the entry's `DataHandle`.  Returns the mutated parent node together
with the buffer index and the (possibly extended) store. -/
def getOrInsertFile (store : List (List Nat)) (name : String) (node : FsNode) :
    FsNode × (Nat × List (List Nat)) :=
  match getChild node.children name with
  | some child => (node, (child.data, store))
  | none =>
      (FsNode.mk node.kind
         (node.children ++ [(name, FsNode.mk .File [] store.length)]) node.data,
       (store.length, store ++ [[]]))

/-- `MemoryPath::open`: resolve the existing node (of either kind) and return
a handle on its buffer at cursor 0.  The Rust code calls `.unwrap()` on the
traversal `Result`, so a missing path is a panic, modelled by `none`. -/
def memOpen (sys : Sys) (p : String) : Option MemFile :=
  match findNode (pathComponents p) sys.root with
  | some m => some { data := m.data, pos := 0 }
  | none => none

/-- `MemoryPath::create`: `parent().unwrap()` (outer `none` = panic when the
path has no parent), then get-or-insert the File node under the parent
(inner `none` = NotFound error when the parent path does not resolve), clear
the shared buffer in place, and hand back a handle at cursor 0. -/
def memCreate (sys : Sys) (p : String) : Option (Sys × Option MemFile) :=
  match (decomposePath p).1 with
  | none => none
  | some parentP =>
      match traverseWith (getOrInsertFile sys.store (decomposePath p).2)
          (pathComponents parentP) sys.root with
      | none => some (sys, none)
      | some (root', (id, store')) =>
          some ({ root := root', store := store'.set id [] },
                some { data := id, pos := 0 })

/-- `MemoryPath::append`: like `create` but without clearing; the handle's
cursor starts at the buffer's current length. -/
def memAppend (sys : Sys) (p : String) : Option (Sys × Option MemFile) :=
  match (decomposePath p).1 with
  | none => none
  | some parentP =>
      match traverseWith (getOrInsertFile sys.store (decomposePath p).2)
          (pathComponents parentP) sys.root with
      | none => some (sys, none)
      | some (root', (id, store')) =>
          some ({ root := root', store := store' },
                some { data := id, pos := (store'.getD id []).length })

/-- `MemoryPath::mkdir`: traverse-and-create over the path's components;
never fails (the Rust `Result` is always `Ok`). -/
def memMkdir (sys : Sys) (p : String) : Sys :=
  let r := traverseMkdir (pathComponents p) sys.root sys.store
  { root := r.1, store := r.2 }

/-- `MemoryPath::exists`: whether traversal succeeds. -/
def memExists (sys : Sys) (p : String) : Bool :=
  (findNode (pathComponents p) sys.root).isSome

/-- `MemoryPath::metadata` / `FsNode::metadata`: the resolved node's kind and
its buffer's current length (0-length buffers for fresh directories). -/
def memMetadata (sys : Sys) (p : String) : Option (NodeKind × Nat) :=
  (findNode (pathComponents p) sys.root).map
    (fun m => (m.kind, (sys.store.getD m.data []).length))

/-- `Read for MemoryFile`: `(&data[pos..]).read(buf)`.  Slicing `data[pos..]`
panics when `pos > len` (`none`); otherwise copies
`min (len - pos) cap` bytes from offset `pos` and advances the cursor.
Returns (bytes copied, new cursor). -/
def fileRead (vec : List Nat) (pos cap : Nat) : Option (List Nat × Nat) :=
  if pos ≤ vec.length then
    let out := (vec.drop pos).take cap
    some (out, pos + out.length)
  else none

/-- `Write for MemoryFile` (the `cursor.rs` algorithm): zero-resize up to the
cursor, overwrite the overlap, append the rest; returns
(new buffer, reported count = `buf.length`, new cursor = `pos + buf.length`). -/
def fileWrite (vec : List Nat) (pos : Nat) (buf : List Nat) :
    List Nat × Nat × Nat :=
  let len := vec.length
  let amt := pos - len
  let vec1 := vec ++ List.replicate amt 0
  let space := vec1.length - pos
  let k := min space buf.length
  let left := buf.take k
  let right := buf.drop k
  let vec2 := vec1.take pos ++ left ++ vec1.drop (pos + k)
  (vec2 ++ right, buf.length, pos + buf.length)

/-- `SeekFrom` from std::io. -/
inductive SeekFrom where
  | start (n : Nat)
  | fromEnd (n : Int)
  | current (n : Int)

/-- `Seek for MemoryFile`: `Start` sets the cursor unconditionally; `End` and
`Current` compute a signed position, failing (`none`, cursor unchanged) when
it is negative.  Returns (result, new cursor). -/
def fileSeek (len pos : Nat) (sf : SeekFrom) : Option Nat × Nat :=
  match sf with
  | .start n => (some n, n)
  | .fromEnd n =>
      let p : Int := (len : Int) + n
      if p < 0 then (none, pos) else (some p.toNat, p.toNat)
  | .current n =>
      let p : Int := (pos : Int) + n
      if p < 0 then (none, pos) else (some p.toNat, p.toNat)

/-- A write through a handle, at the filesystem level: rewrites the handle's
shared buffer in the store and advances the handle's cursor. -/
def sysWrite (sys : Sys) (h : MemFile) (buf : List Nat) : Sys × MemFile :=
  let vec := sys.store.getD h.data []
  let r := fileWrite vec h.pos buf
  ({ root := sys.root, store := sys.store.set h.data r.1 },
   { data := h.data, pos := r.2.2 })

/-- The tree contains (at the root or in some subtree) a node of kind `k`
whose buffer index is `i`. -/
inductive HasKD : FsNode → NodeKind → Nat → Prop where
  | here (k : NodeKind) (cs : List (String × FsNode)) (d : Nat) :
      HasKD (FsNode.mk k cs d) k d
  | there {k' : NodeKind} {cs : List (String × FsNode)} {d' : Nat}
      {name : String} {c : FsNode} {k : NodeKind} {i : Nat} :
      (name, c) ∈ cs → HasKD c k i → HasKD (FsNode.mk k' cs d') k i

/-- State invariant of the filesystem: every Directory node's buffer is
empty, every node's buffer index is allocated, and no buffer index is shared
between a File node and a Directory node (in the code each `FsNode` gets its
own fresh `DataHandle`). -/
def SysInv (sys : Sys) : Prop :=
  (∀ i, HasKD sys.root .Directory i → sys.store.getD i [] = []) ∧
  (∀ k i, HasKD sys.root k i → i < sys.store.length) ∧
  (∀ i, HasKD sys.root .File i → HasKD sys.root .Directory i → False)

/-- A configuration: the filesystem state plus the handles currently held by
the caller. -/
def initConfig : Sys × List MemFile := (initSys, [])

/-- One public operation, as a step on (filesystem, live handles).
`metadata`, `exists`, `read_dir` and `flush` are read-only — they change
neither the tree, the store, nor any handle — so they contribute no
transitions.  Operations that panic (`open` on a missing path, `create` and
`append` on a parentless path, `read` with the cursor past the end) abort
the program and therefore also contribute no transitions. -/
inductive Step : Sys × List MemFile → Sys × List MemFile → Prop where
  | mkdirStep (sys : Sys) (hs : List MemFile) (p : String) :
      Step (sys, hs) (memMkdir sys p, hs)
  | openStep (sys : Sys) (hs : List MemFile) (p : String) (h : MemFile) :
      memOpen sys p = some h → Step (sys, hs) (sys, hs ++ [h])
  | createStep (sys : Sys) (hs : List MemFile) (p : String) (sys' : Sys)
      (r : Option MemFile) :
      memCreate sys p = some (sys', r) → Step (sys, hs) (sys', hs ++ r.toList)
  | appendStep (sys : Sys) (hs : List MemFile) (p : String) (sys' : Sys)
      (r : Option MemFile) :
      memAppend sys p = some (sys', r) → Step (sys, hs) (sys', hs ++ r.toList)
  | writeStep (sys : Sys) (hs : List MemFile) (i : Nat) (buf : List Nat)
      (hlt : i < hs.length) :
      Step (sys, hs) ((sysWrite sys (hs.get ⟨i, hlt⟩) buf).1,
        hs.set i (sysWrite sys (hs.get ⟨i, hlt⟩) buf).2)
  | readStep (sys : Sys) (hs : List MemFile) (i cap : Nat)
      (out : List Nat × Nat) (hlt : i < hs.length) :
      fileRead (sys.store.getD (hs.get ⟨i, hlt⟩).data [])
        (hs.get ⟨i, hlt⟩).pos cap = some out →
      Step (sys, hs) (sys, hs.set i (MemFile.mk (hs.get ⟨i, hlt⟩).data out.2))
  | seekStep (sys : Sys) (hs : List MemFile) (i : Nat) (sf : SeekFrom)
      (hlt : i < hs.length) :
      Step (sys, hs) (sys, hs.set i (MemFile.mk (hs.get ⟨i, hlt⟩).data
        (fileSeek (sys.store.getD (hs.get ⟨i, hlt⟩).data []).length
          (hs.get ⟨i, hlt⟩).pos sf).2))

/-- The same step relation restricted to runs in which every `write` goes
through a handle whose buffer currently belongs to a File node of the tree
(writes through handles opened on Directory nodes are excluded). -/
inductive GStep : Sys × List MemFile → Sys × List MemFile → Prop where
  | mkdirStep (sys : Sys) (hs : List MemFile) (p : String) :
      GStep (sys, hs) (memMkdir sys p, hs)
  | openStep (sys : Sys) (hs : List MemFile) (p : String) (h : MemFile) :
      memOpen sys p = some h → GStep (sys, hs) (sys, hs ++ [h])
  | createStep (sys : Sys) (hs : List MemFile) (p : String) (sys' : Sys)
      (r : Option MemFile) :
      memCreate sys p = some (sys', r) → GStep (sys, hs) (sys', hs ++ r.toList)
  | appendStep (sys : Sys) (hs : List MemFile) (p : String) (sys' : Sys)
      (r : Option MemFile) :
      memAppend sys p = some (sys', r) → GStep (sys, hs) (sys', hs ++ r.toList)
  | writeStep (sys : Sys) (hs : List MemFile) (i : Nat) (buf : List Nat)
      (hlt : i < hs.length)
      (hFile : HasKD sys.root .File (hs.get ⟨i, hlt⟩).data) :
      GStep (sys, hs) ((sysWrite sys (hs.get ⟨i, hlt⟩) buf).1,
        hs.set i (sysWrite sys (hs.get ⟨i, hlt⟩) buf).2)
  | readStep (sys : Sys) (hs : List MemFile) (i cap : Nat)
      (out : List Nat × Nat) (hlt : i < hs.length) :
      fileRead (sys.store.getD (hs.get ⟨i, hlt⟩).data [])
        (hs.get ⟨i, hlt⟩).pos cap = some out →
      GStep (sys, hs) (sys, hs.set i (MemFile.mk (hs.get ⟨i, hlt⟩).data out.2))
  | seekStep (sys : Sys) (hs : List MemFile) (i : Nat) (sf : SeekFrom)
      (hlt : i < hs.length) :
      GStep (sys, hs) (sys, hs.set i (MemFile.mk (hs.get ⟨i, hlt⟩).data
        (fileSeek (sys.store.getD (hs.get ⟨i, hlt⟩).data []).length
          (hs.get ⟨i, hlt⟩).pos sf).2))

/-- The byte content of the file at `p`: the buffer its `open` handle is
bound to (empty if `open` would panic). -/
def fileContent (sys : Sys) (p : String) : List Nat :=
  match memOpen sys p with
  | some h => sys.store.getD h.data []
  | none => []

/-- The state after a `create` call, discarding the returned handle. -/
def afterCreate (sys : Sys) (p : String) : Sys :=
  match memCreate sys p with
  | some (s, _) => s
  | none => sys

/-- The append scenario of the spec: `append("/f")`, write "A" (65), drop the
handle, `append("/f")` again, write "B" (66). -/
def appendScenario : Sys :=
  match memAppend initSys "/f" with
  | some (s1, some h1) =>
      match memAppend (sysWrite s1 h1 [65]).1 "/f" with
      | some (s2, some h2) => (sysWrite s2 h2 [66]).1
      | _ => initSys
  | _ => initSys

/-! ## Generic list helper lemmas -/

theorem getD_drop_add (l : List Nat) (n m : Nat) (d : Nat) :
    (l.drop n).getD m d = l.getD (n + m) d := by
  induction l generalizing n with
  | nil => simp
  | cons x xs ih =>
      cases n with
      | zero => simp
      | succ n =>
          simp only [List.drop_succ_cons, Nat.succ_add, List.getD_cons_succ]
          exact ih n

theorem getD_take_lt (l : List Nat) (n m : Nat) (d : Nat) (h : m < n) :
    (l.take n).getD m d = l.getD m d := by
  simp [List.getD_eq_getElem?_getD, List.getElem?_take_of_lt h]

/-! ## C1: the write algorithm -/

theorem fileWrite_closed (vec : List Nat) (pos : Nat) (buf : List Nat) :
    (fileWrite vec pos buf).1 =
      vec.take pos ++ List.replicate (pos - vec.length) 0 ++ buf ++
        vec.drop (pos + buf.length) := by
  unfold fileWrite
  by_cases hp : vec.length ≤ pos
  · have h1 : (vec ++ List.replicate (pos - vec.length) 0).length = pos := by
      simp; omega
    have htake : (vec ++ List.replicate (pos - vec.length) 0).take pos =
        vec ++ List.replicate (pos - vec.length) 0 :=
      List.take_of_length_le (by omega)
    have hdrop : ∀ j, pos ≤ j →
        (vec ++ List.replicate (pos - vec.length) 0).drop j = [] := by
      intro j hj; exact List.drop_eq_nil_of_le (by omega)
    have hvdrop : vec.drop (pos + buf.length) = [] :=
      List.drop_eq_nil_of_le (by omega)
    have hvtake : vec.take pos = vec := List.take_of_length_le hp
    simp only [h1, htake, hvdrop, hvtake]
    simp [hdrop pos (le_refl pos), List.append_assoc]
  · push_neg at hp
    have hz : pos - vec.length = 0 := by omega
    have hrep : List.replicate (pos - vec.length) (0 : Nat) = [] := by
      rw [hz]; rfl
    simp only [hrep, List.append_nil]
    by_cases hk : buf.length ≤ vec.length - pos
    · have hmin : min (vec.length - pos) buf.length = buf.length := by omega
      simp [hmin, List.take_of_length_le (le_refl buf.length), List.append_assoc]
    · push_neg at hk
      have hmin : min (vec.length - pos) buf.length = vec.length - pos := by omega
      have hdv : vec.drop (pos + (vec.length - pos)) = [] :=
        List.drop_eq_nil_of_le (by omega)
      have hdv2 : vec.drop (pos + buf.length) = [] :=
        List.drop_eq_nil_of_le (by omega)
      simp only [hmin, hdv, hdv2, List.append_nil]
      rw [List.append_assoc, List.take_append_drop]

/-- C1: `write` zero-extends up to the cursor when it lies past the end,
overwrites the overlap, appends the remainder, reports `n = |from|`, and
advances the cursor to `pos + |from|`; the resulting length is
`max L (pos + |from|)`, positions `[L, pos)` are zero, positions
`[pos, pos + |from|)` hold the written bytes, and bytes outside the written
range are preserved. -/
theorem C1_write_spec (vec : List Nat) (pos : Nat) (buf : List Nat) :
    (fileWrite vec pos buf).2.1 = buf.length ∧
    (fileWrite vec pos buf).2.2 = pos + buf.length ∧
    (fileWrite vec pos buf).1.length = max vec.length (pos + buf.length) ∧
    (fileWrite vec pos buf).1 =
      vec.take pos ++ List.replicate (pos - vec.length) 0 ++ buf ++
        vec.drop (pos + buf.length) ∧
    (∀ i, i < pos → i < vec.length →
      (fileWrite vec pos buf).1.getD i 0 = vec.getD i 0) ∧
    (∀ i, vec.length ≤ i → i < pos →
      (fileWrite vec pos buf).1.getD i 0 = 0) ∧
    (∀ j, j < buf.length →
      (fileWrite vec pos buf).1.getD (pos + j) 0 = buf.getD j 0) ∧
    (∀ i, pos + buf.length ≤ i → i < vec.length →
      (fileWrite vec pos buf).1.getD i 0 = vec.getD i 0) := by
  have hc := fileWrite_closed vec pos buf
  have hlenA : (vec.take pos ++ List.replicate (pos - vec.length) 0).length = pos := by
    simp; omega
  refine ⟨rfl, rfl, ?_, hc, ?_, ?_, ?_, ?_⟩
  · rw [hc]; simp; omega
  · intro i hip hil
    rw [hc,
      List.getD_append _ _ _ _ (by simp; omega),
      List.getD_append _ _ _ _ (by rw [hlenA]; omega),
      List.getD_append _ _ _ _ (by simp; omega)]
    exact getD_take_lt vec pos i 0 hip
  · intro i hli hip
    rw [hc,
      List.getD_append _ _ _ _ (by simp; omega),
      List.getD_append _ _ _ _ (by rw [hlenA]; omega),
      List.getD_append_right _ _ _ _ (by simp; omega)]
    have : i - (vec.take pos).length < pos - vec.length := by simp; omega
    simp [List.getD_eq_getElem?_getD, List.getElem?_replicate_of_lt this]
  · intro j hj
    rw [hc,
      List.getD_append _ _ _ _ (by simp; omega),
      List.getD_append_right _ _ _ _ (by rw [hlenA]; omega)]
    rw [hlenA]
    congr 1
    omega
  · intro i hge hil
    rw [hc,
      List.getD_append_right _ _ _ _ (by simp; omega)]
    rw [getD_drop_add]
    congr 1
    simp
    omega

/-! ## C4: the read operation -/

/-- C4 counterexample: `read` is not total — with the cursor seeked past the
current buffer length (`pos = 1` on an empty buffer) the slice `data[pos..]`
is out of range and the call panics (modelled by `none`), contradicting
"never fails — including when the cursor has been seeked past the current
buffer length". -/
theorem C4_read_counterexample : fileRead [] 1 1 = none := by decide

/-- C4 (amended): when the cursor is within bounds (`pos ≤ L`), `read` copies
exactly `min (L - pos) cap` bytes starting at offset `pos`, advances the
cursor by that amount, and returns 0 bytes exactly when the cursor is at
end-of-data or the destination has capacity 0; when `pos > L` the call
panics. -/
theorem C4_read_spec (vec : List Nat) (pos cap : Nat) :
    (pos ≤ vec.length →
      ∃ out, fileRead vec pos cap = some (out, pos + out.length) ∧
        out.length = min (vec.length - pos) cap ∧
        (∀ j, j < out.length → out.getD j 0 = vec.getD (pos + j) 0) ∧
        (out.length = 0 ↔ (pos = vec.length ∨ cap = 0))) ∧
    (vec.length < pos → fileRead vec pos cap = none) := by
  constructor
  · intro hle
    refine ⟨(vec.drop pos).take cap, ?_, ?_, ?_, ?_⟩
    · simp [fileRead, hle]
    · simp [Nat.min_comm]
    · intro j hj
      have hcap : j < cap := by
        have := hj; simp at this; omega
      rw [getD_take_lt _ _ _ _ hcap, getD_drop_add]
    · simp; omega
  · intro hlt
    simp [fileRead]
    omega

/-- C4 witness: the amended read specification at a concrete input. -/
theorem C4_read_spec_witness :
    ∃ out, fileRead [7, 8, 9] 1 5 = some (out, 1 + out.length) ∧
      out.length = min ([7, 8, 9].length - 1) 5 ∧
      (∀ j, j < out.length → out.getD j 0 = [7, 8, 9].getD (1 + j) 0) ∧
      (out.length = 0 ↔ (1 = [7, 8, 9].length ∨ 5 = 0)) :=
  (C4_read_spec [7, 8, 9] 1 5).1 (by decide)

/-! ## C7: the seek operation -/

/-- C7: `Start` sets the cursor unconditionally and returns it; `End`/`Current`
compute `L + n` / `pos + n` over the integers; a negative computed position
fails (InvalidArgument) leaving the cursor at its prior value; otherwise the
cursor becomes the computed position, which is returned. -/
theorem C7_seek_spec (len pos : Nat) :
    (∀ n : Nat, fileSeek len pos (.start n) = (some n, n)) ∧
    (∀ n : Int, ((len : Int) + n < 0 →
        fileSeek len pos (.fromEnd n) = (none, pos)) ∧
      (0 ≤ (len : Int) + n →
        fileSeek len pos (.fromEnd n) =
          (some ((len : Int) + n).toNat, ((len : Int) + n).toNat) ∧
        ((((len : Int) + n).toNat : Int) = (len : Int) + n))) ∧
    (∀ n : Int, ((pos : Int) + n < 0 →
        fileSeek len pos (.current n) = (none, pos)) ∧
      (0 ≤ (pos : Int) + n →
        fileSeek len pos (.current n) =
          (some ((pos : Int) + n).toNat, ((pos : Int) + n).toNat) ∧
        ((((pos : Int) + n).toNat : Int) = (pos : Int) + n))) := by
  refine ⟨fun n => rfl, fun n => ⟨?_, ?_⟩, fun n => ⟨?_, ?_⟩⟩
  · intro h; simp only [fileSeek]; rw [if_pos h]
  · intro h
    simp only [fileSeek]
    rw [if_neg (by omega)]
    exact ⟨rfl, Int.toNat_of_nonneg h⟩
  · intro h; simp only [fileSeek]; rw [if_pos h]
  · intro h
    simp only [fileSeek]
    rw [if_neg (by omega)]
    exact ⟨rfl, Int.toNat_of_nonneg h⟩

/-- C7 witness: the seek specification applied at concrete inputs, including
a negative-result failure that leaves the cursor unchanged. -/
theorem C7_seek_spec_witness :
    fileSeek 3 7 (.start 9) = (some 9, 9) ∧
    fileSeek 3 7 (.fromEnd (-4)) = (none, 7) ∧
    fileSeek 3 7 (.fromEnd (-1)) = (some 2, 2) ∧
    fileSeek 3 7 (.current (-2)) = (some 5, 5) :=
  ⟨(C7_seek_spec 3 7).1 9,
   ((C7_seek_spec 3 7).2.1 (-4)).1 (by decide),
   (((C7_seek_spec 3 7).2.1 (-1)).2 (by decide)).1,
   (((C7_seek_spec 3 7).2.2 (-2)).2 (by decide)).1⟩

/-- C1 witness: the write specification applied at a concrete input
(a seek past the end followed by a write, checking a hole-filled byte). -/
theorem C1_write_spec_witness : (fileWrite [1, 2] 4 [9]).1.getD 2 0 = 0 :=
  (C1_write_spec [1, 2] 4 [9]).2.2.2.2.2.1 2 (by decide) (by decide)

/-! ## C3: open on a missing path -/

/-- C3: on a freshly created filesystem, `open("/a")` hits the `.unwrap()` of
the failed traversal and panics (`none`) instead of returning the NotFound
error to the caller; `open("/")` succeeds on a Directory node (no kind
validation), returning a handle on its buffer at cursor 0. -/
theorem C3_open_panics :
    memOpen initSys "/a" = none ∧
    memOpen initSys "/" = some { data := 0, pos := 0 } := by
  constructor <;> rfl

/-! ## C10: create/append on a parentless path -/

/-- C10: for every path whose decomposition yields no parent, `create` and
`append` panic (`unwrap` of `None` from `parent()`, modelled by `none`); the
root path `"/"` and any path string without a `'/'` separator decompose with
no parent, so the panic is reachable through the public interface. -/
theorem C10_parentless_panics :
    (∀ (sys : Sys) (p : String), (decomposePath p).1 = none →
      memCreate sys p = none ∧ memAppend sys p = none) ∧
    (decomposePath "/").1 = none ∧
    (∀ p : String, p.data.contains '/' = false → (decomposePath p).1 = none) := by
  refine ⟨?_, by decide, ?_⟩
  · intro sys p hp
    constructor
    · unfold memCreate; rw [hp]
    · unfold memAppend; rw [hp]
  · intro p hp
    unfold decomposePath
    rw [hp]
    simp

/-- C10 witness: `create` and `append` on the root path panic on the fresh
filesystem. -/
theorem C10_parentless_panics_witness :
    memCreate initSys "/" = none ∧ memAppend initSys "/" = none :=
  C10_parentless_panics.1 initSys "/" (by decide)

/-! ## C8: decompose / push round trip -/

theorem takeWhile_app_cons {q : Char → Bool} (l1 : List Char) (x : Char)
    (l2 : List Char) (h1 : ∀ a ∈ l1, q a = true) (h2 : q x = false) :
    (l1 ++ x :: l2).takeWhile q = l1 := by
  rw [List.takeWhile_append_of_pos h1]
  simp [List.takeWhile_cons, h2]

theorem dropWhile_app_cons {q : Char → Bool} (l1 : List Char) (x : Char)
    (l2 : List Char) (h1 : ∀ a ∈ l1, q a = true) (h2 : q x = false) :
    (l1 ++ x :: l2).dropWhile q = x :: l2 := by
  rw [List.dropWhile_append_of_pos h1]
  simp [List.dropWhile_cons, h2]

/-- The decomposition computed by `decompose_path` on a path of the shape
`A ++ "/" ++ B` with `B` a nonempty, slash-free leaf. -/
theorem decomposePath_eq (p : String) (A B : List Char)
    (hsplit : p.data = A ++ '/' :: B) (hBne : B ≠ []) (hBslash : '/' ∉ B) :
    decomposePath p =
      (some (if A.isEmpty then "/" else String.mk A), String.mk B) := by
  have hq : ∀ a ∈ B.reverse, (decide (a ≠ '/')) = true := by
    intro a ha
    rw [List.mem_reverse] at ha
    simp only [decide_eq_true_eq]
    intro hEq
    exact hBslash (hEq ▸ ha)
  have hqx : (decide (('/' : Char) ≠ '/')) = false := by simp
  have hrev : p.data.reverse = B.reverse ++ '/' :: A.reverse := by
    rw [hsplit]
    simp
  have hcontains : p.data.contains '/' = true := by
    rw [hsplit]
    simp [List.contains_eq_any_beq]
  have htw : p.data.reverse.takeWhile (fun c => c ≠ '/') = B.reverse := by
    rw [hrev]; exact takeWhile_app_cons _ _ _ hq hqx
  have hdw : p.data.reverse.dropWhile (fun c => c ≠ '/') = '/' :: A.reverse := by
    rw [hrev]; exact dropWhile_app_cons _ _ _ hq hqx
  have hBe : B.isEmpty = false := by
    cases B with
    | nil => exact absurd rfl hBne
    | cons x xs => rfl
  unfold decomposePath
  rw [hcontains]
  simp only [htw, hdw, List.drop_succ_cons, List.drop_zero,
    List.reverse_reverse, hBe, if_true]
  rfl

/-- C8 counterexample: for `P = "/a//b"` the decomposition yields parent
`"/a/"` and leaf `"b"`, but pushing the leaf back onto the parent yields
`"/a/b"`, which is not structurally equal to `P`. -/
theorem C8_roundtrip_counterexample :
    ((decomposePath "/a//b").1.isSome = true) ∧
    pushPath ((decomposePath "/a//b").1.getD "") ((decomposePath "/a//b").2) ≠
      "/a//b" := by
  constructor <;> decide

/-- C8 (amended): for every non-root path `P = A ++ "/" ++ B` (leaf `B`
nonempty and slash-free) such that the text `A` before the last separator is
empty or does not itself end in `'/'`, `parent().push(file_name())`
reconstructs a path structurally equal to `P`.  (When `A` ends in `'/'`,
push inserts no separator and one slash is lost.) -/
theorem C8_roundtrip (p : String) (A B : List Char)
    (hsplit : p.data = A ++ '/' :: B) (hBne : B ≠ []) (hBslash : '/' ∉ B)
    (hA : A = [] ∨ A.getLast? ≠ some '/') :
    (decomposePath p).1.isSome = true ∧
    pushPath ((decomposePath p).1.getD "") ((decomposePath p).2) = p := by
  rw [decomposePath_eq p A B hsplit hBne hBslash]
  by_cases hAe : A = []
  · subst hAe
    refine ⟨rfl, ?_⟩
    apply String.ext
    rw [hsplit]
    simp [pushPath]
  · have hAne : A.isEmpty = false := by
      cases A with
      | nil => exact absurd rfl hAe
      | cons x xs => rfl
    have hlastA : A.getLast? ≠ some '/' := hA.resolve_left hAe
    refine ⟨by simp [hAne], ?_⟩
    simp only [hAne, Bool.false_eq_true, if_false, Option.getD_some]
    have hlast : (String.mk A).data.getLast? ≠ some '/' := hlastA
    apply String.ext
    rw [hsplit]
    unfold pushPath
    rw [if_neg hlast]
    simp

/-- C8 witness: the round trip at the concrete path `"/a/b"`. -/
theorem C8_roundtrip_witness :
    (decomposePath "/a/b").1.isSome = true ∧
    pushPath ((decomposePath "/a/b").1.getD "") ((decomposePath "/a/b").2) =
      "/a/b" :=
  C8_roundtrip "/a/b" ['/', 'a'] ['b'] (by decide) (by decide) (by decide)
    (Or.inr (by decide))

/-! ## Children-map and traversal lemmas -/

theorem getChild_mem {cs : List (String × FsNode)} {name : String} {v : FsNode}
    (h : getChild cs name = some v) : (name, v) ∈ cs := by
  induction cs with
  | nil => simp [getChild] at h
  | cons x rest ih =>
      obtain ⟨k, w⟩ := x
      rw [getChild] at h
      by_cases hk : k = name
      · rw [if_pos hk] at h
        cases h
        subst hk
        exact List.mem_cons_self _ _
      · rw [if_neg hk] at h
        exact List.mem_cons_of_mem _ (ih h)

theorem getChild_setChild {cs : List (String × FsNode)} {name : String}
    {v w : FsNode} (h : getChild cs name = some w) :
    getChild (setChild cs name v) name = some v := by
  induction cs with
  | nil => simp [getChild] at h
  | cons x rest ih =>
      obtain ⟨k, u⟩ := x
      rw [getChild] at h
      by_cases hk : k = name
      · simp [setChild, if_pos hk, getChild]
      · rw [if_neg hk] at h
        simp only [setChild, if_neg hk, getChild]
        exact ih h

theorem getChild_append_self {cs : List (String × FsNode)} {name : String}
    (v : FsNode) (h : getChild cs name = none) :
    getChild (cs ++ [(name, v)]) name = some v := by
  induction cs with
  | nil => simp [getChild]
  | cons x rest ih =>
      obtain ⟨k, u⟩ := x
      rw [getChild] at h
      by_cases hk : k = name
      · rw [if_pos hk] at h; cases h
      · rw [if_neg hk] at h
        rw [List.cons_append, getChild, if_neg hk]
        exact ih h

theorem mem_setChild {cs : List (String × FsNode)} {name : String}
    {v : FsNode} {x : String × FsNode} (h : x ∈ setChild cs name v) :
    x ∈ cs ∨ x = (name, v) := by
  induction cs with
  | nil => simp [setChild] at h
  | cons y rest ih =>
      obtain ⟨k, u⟩ := y
      rw [setChild] at h
      by_cases hk : k = name
      · rw [if_pos hk] at h
        rcases List.mem_cons.mp h with h1 | h1
        · right; rw [h1, hk]
        · left; exact List.mem_cons_of_mem _ h1
      · rw [if_neg hk] at h
        rcases List.mem_cons.mp h with h1 | h1
        · left; rw [h1]; exact List.mem_cons_self _ _
        · rcases ih h1 with h2 | h2
          · left; exact List.mem_cons_of_mem _ h2
          · right; exact h2

theorem hasKD_self (n : FsNode) : HasKD n n.kind n.data := by
  cases n with
  | mk k cs d => exact HasKD.here k cs d

theorem hasKD_nil {k k' : NodeKind} {d i : Nat}
    (h : HasKD (FsNode.mk k [] d) k' i) : k' = k ∧ i = d := by
  cases h with
  | here => exact ⟨rfl, rfl⟩
  | there hm _ => exact absurd hm (List.not_mem_nil _)

theorem findNode_hasKD {comps : List String} {node m : FsNode}
    (h : findNode comps node = some m) {k : NodeKind} {i : Nat}
    (hkd : HasKD m k i) : HasKD node k i := by
  induction comps generalizing node with
  | nil => rw [findNode] at h; cases h; exact hkd
  | cons c rest ih =>
      rw [findNode] at h
      by_cases hc : c = ""
      · rw [if_pos hc] at h; exact ih h
      · rw [if_neg hc] at h
        cases hgc : getChild node.children c with
        | none => rw [hgc] at h; cases h
        | some child =>
            rw [hgc] at h
            have hchild := ih h
            cases node with
            | mk nk cs nd => exact HasKD.there (getChild_mem hgc) hchild

theorem traverseWith_none {R : Type} (f : FsNode → FsNode × R)
    {comps : List String} {node : FsNode} (h : findNode comps node = none) :
    traverseWith f comps node = none := by
  induction comps generalizing node with
  | nil => rw [findNode] at h; cases h
  | cons c rest ih =>
      rw [findNode] at h
      by_cases hc : c = ""
      · rw [if_pos hc] at h
        simp only [traverseWith, if_pos hc]
        exact ih h
      · rw [if_neg hc] at h
        cases hgc : getChild node.children c with
        | none => simp [traverseWith, if_neg hc, hgc]
        | some child =>
            rw [hgc] at h
            simp [traverseWith, if_neg hc, hgc, ih h]

theorem traverseWith_found {R : Type} (f : FsNode → FsNode × R)
    {comps : List String} {node m : FsNode} (h : findNode comps node = some m) :
    ∃ node', traverseWith f comps node = some (node', (f m).2) ∧
      findNode comps node' = some (f m).1 := by
  induction comps generalizing node with
  | nil =>
      rw [findNode] at h
      cases h
      exact ⟨(f m).1, rfl, rfl⟩
  | cons c rest ih =>
      by_cases hc : c = ""
      · rw [findNode, if_pos hc] at h
        obtain ⟨node', h1, h2⟩ := ih h
        refine ⟨node', ?_, ?_⟩
        · simp only [traverseWith, if_pos hc]; exact h1
        · simp only [findNode, if_pos hc]; exact h2
      · rw [findNode, if_neg hc] at h
        cases hgc : getChild node.children c with
        | none => rw [hgc] at h; cases h
        | some child =>
            rw [hgc] at h
            obtain ⟨child', h1, h2⟩ := ih h
            cases node with
            | mk nk cs nd =>
                have hgc' : getChild cs c = some child := hgc
                refine ⟨FsNode.mk nk (setChild cs c child') nd, ?_, ?_⟩
                · simp only [traverseWith, if_neg hc, FsNode.children_mk,
                    FsNode.kind_mk, FsNode.data_mk, hgc', h1]
                · simp only [findNode, if_neg hc, FsNode.children_mk]
                  rw [getChild_setChild hgc']
                  exact h2

theorem hasKD_of_getChild {n : FsNode} {name : String} {c : FsNode}
    (h : getChild n.children name = some c) : HasKD n c.kind c.data := by
  cases n with
  | mk k cs d => exact HasKD.there (getChild_mem h) (hasKD_self c)

/-! ## C2: create -/

/-- C2: when the path has a parent, `create` fails with NotFound — leaving
the tree unchanged — exactly when the parent path does not resolve; when the
parent resolves, it get-or-inserts the File node under the parent (keeping
an existing node of whatever kind, inserting a fresh empty File node
otherwise), clears the shared buffer in place to zero length (so any handle
bound to that buffer index observes length 0), and returns a handle on that
same buffer with cursor 0. -/
theorem C2_create_spec (sys : Sys) (p parentP : String)
    (hp : (decomposePath p).1 = some parentP)
    (hb : ∀ k i, HasKD sys.root k i → i < sys.store.length) :
    (findNode (pathComponents parentP) sys.root = none →
        memCreate sys p = some (sys, none)) ∧
    (∀ par, findNode (pathComponents parentP) sys.root = some par →
        ∃ sys' leaf,
          memCreate sys p = some (sys', some (MemFile.mk leaf.data 0)) ∧
          sys'.store.getD leaf.data [] = [] ∧
          findNode (pathComponents parentP) sys'.root =
            some (getOrInsertFile sys.store (decomposePath p).2 par).1 ∧
          getChild (getOrInsertFile sys.store (decomposePath p).2 par).1.children
            (decomposePath p).2 = some leaf ∧
          (getChild par.children (decomposePath p).2 = some leaf ∨
            (getChild par.children (decomposePath p).2 = none ∧
             leaf = FsNode.mk .File [] sys.store.length))) := by
  constructor
  · intro hnone
    simp only [memCreate, hp, traverseWith_none _ hnone]
  · intro par hpar
    obtain ⟨root', htr, hfd⟩ :=
      traverseWith_found (getOrInsertFile sys.store (decomposePath p).2) hpar
    cases hgc : getChild par.children (decomposePath p).2 with
    | some child =>
        have hfp : getOrInsertFile sys.store (decomposePath p).2 par =
            (par, (child.data, sys.store)) := by
          simp only [getOrInsertFile, hgc]
        rw [hfp] at htr hfd
        have hlt : child.data < sys.store.length :=
          hb _ _ (findNode_hasKD hpar (hasKD_of_getChild hgc))
        refine ⟨⟨root', sys.store.set child.data []⟩, child, ?_, ?_, ?_, ?_,
          Or.inl rfl⟩
        · simp only [memCreate, hp, htr]
        · simp [List.getD_eq_getElem?_getD, List.getElem?_set_self hlt]
        · rw [hfp]; exact hfd
        · rw [hfp]; exact hgc
    | none =>
        have hfp : getOrInsertFile sys.store (decomposePath p).2 par =
            (FsNode.mk par.kind
              (par.children ++
                [((decomposePath p).2, FsNode.mk .File [] sys.store.length)])
              par.data,
             (sys.store.length, sys.store ++ [[]])) := by
          simp only [getOrInsertFile, hgc]
        rw [hfp] at htr hfd
        have hlt : sys.store.length < (sys.store ++ [[]]).length := by simp
        refine ⟨⟨root', (sys.store ++ [[]]).set sys.store.length []⟩,
          FsNode.mk .File [] sys.store.length, ?_, ?_, ?_, ?_,
          Or.inr ⟨rfl, rfl⟩⟩
        · simp only [memCreate, hp, htr, FsNode.data_mk]
        · simp [List.getD_eq_getElem?_getD, List.getElem?_set_self hlt]
        · rw [hfp]; exact hfd
        · rw [hfp]
          exact getChild_append_self _ hgc

/-- C2 witness: `create("/a")` on the fresh filesystem. -/
theorem C2_create_spec_witness :
    ∃ sys' leaf,
      memCreate initSys "/a" = some (sys', some (MemFile.mk leaf.data 0)) ∧
      sys'.store.getD leaf.data [] = [] ∧
      findNode (pathComponents "/") sys'.root =
        some (getOrInsertFile initSys.store (decomposePath "/a").2
          initSys.root).1 ∧
      getChild (getOrInsertFile initSys.store (decomposePath "/a").2
          initSys.root).1.children (decomposePath "/a").2 = some leaf ∧
      (getChild initSys.root.children (decomposePath "/a").2 = some leaf ∨
        (getChild initSys.root.children (decomposePath "/a").2 = none ∧
         leaf = FsNode.mk .File [] initSys.store.length)) :=
  (C2_create_spec initSys "/a" "/" (by decide)
      (fun k i h => by
        obtain ⟨hk, hi⟩ := hasKD_nil h
        subst hi
        decide)).2
    initSys.root rfl

/-! ## C6: append -/

/-- C6: like `create` but the buffer is left untouched and the handle's
cursor starts at the buffer's current length; the concrete scenario —
append "A" (65), drop the handle, append again, write "B" (66) — leaves the
file content "AB" ([65, 66]). -/
theorem C6_append_spec (sys : Sys) (p parentP : String)
    (hp : (decomposePath p).1 = some parentP) :
    (findNode (pathComponents parentP) sys.root = none →
        memAppend sys p = some (sys, none)) ∧
    (∀ par, findNode (pathComponents parentP) sys.root = some par →
        ∃ sys' leaf,
          memAppend sys p = some (sys', some (MemFile.mk leaf.data
            (sys'.store.getD leaf.data []).length)) ∧
          sys'.store.getD leaf.data [] = sys.store.getD leaf.data [] ∧
          findNode (pathComponents parentP) sys'.root =
            some (getOrInsertFile sys.store (decomposePath p).2 par).1 ∧
          getChild (getOrInsertFile sys.store (decomposePath p).2 par).1.children
            (decomposePath p).2 = some leaf ∧
          (getChild par.children (decomposePath p).2 = some leaf ∨
            (getChild par.children (decomposePath p).2 = none ∧
             leaf = FsNode.mk .File [] sys.store.length))) ∧
    fileContent appendScenario "/f" = [65, 66] := by
  refine ⟨?_, ?_, by decide⟩
  · intro hnone
    simp only [memAppend, hp, traverseWith_none _ hnone]
  · intro par hpar
    obtain ⟨root', htr, hfd⟩ :=
      traverseWith_found (getOrInsertFile sys.store (decomposePath p).2) hpar
    cases hgc : getChild par.children (decomposePath p).2 with
    | some child =>
        have hfp : getOrInsertFile sys.store (decomposePath p).2 par =
            (par, (child.data, sys.store)) := by
          simp only [getOrInsertFile, hgc]
        rw [hfp] at htr hfd
        refine ⟨⟨root', sys.store⟩, child, ?_, rfl, ?_, ?_, Or.inl rfl⟩
        · simp only [memAppend, hp, htr]
        · rw [hfp]; exact hfd
        · rw [hfp]; exact hgc
    | none =>
        have hfp : getOrInsertFile sys.store (decomposePath p).2 par =
            (FsNode.mk par.kind
              (par.children ++
                [((decomposePath p).2, FsNode.mk .File [] sys.store.length)])
              par.data,
             (sys.store.length, sys.store ++ [[]])) := by
          simp only [getOrInsertFile, hgc]
        rw [hfp] at htr hfd
        have hgd : (sys.store ++ [[]]).getD sys.store.length [] = ([] : List Nat) := by
          rw [List.getD_append_right _ _ _ _ (le_refl _)]
          simp
        refine ⟨⟨root', sys.store ++ [[]]⟩,
          FsNode.mk .File [] sys.store.length, ?_, ?_, ?_, ?_,
          Or.inr ⟨rfl, rfl⟩⟩
        · simp only [memAppend, hp, htr, FsNode.data_mk]
        · simp only [FsNode.data_mk]
          rw [hgd, List.getD_eq_default _ _ (le_refl _)]
        · rw [hfp]; exact hfd
        · rw [hfp]
          exact getChild_append_self _ hgc

/-- C6 witness: `append("/a")` on the fresh filesystem. -/
theorem C6_append_spec_witness :
    ∃ sys' leaf,
      memAppend initSys "/a" = some (sys', some (MemFile.mk leaf.data
        (sys'.store.getD leaf.data []).length)) ∧
      sys'.store.getD leaf.data [] = initSys.store.getD leaf.data [] ∧
      findNode (pathComponents "/") sys'.root =
        some (getOrInsertFile initSys.store (decomposePath "/a").2
          initSys.root).1 ∧
      getChild (getOrInsertFile initSys.store (decomposePath "/a").2
          initSys.root).1.children (decomposePath "/a").2 = some leaf ∧
      (getChild initSys.root.children (decomposePath "/a").2 = some leaf ∨
        (getChild initSys.root.children (decomposePath "/a").2 = none ∧
         leaf = FsNode.mk .File [] initSys.store.length)) :=
  (C6_append_spec initSys "/a" "/" (by decide)).2.1 initSys.root rfl

/-! ## C5: mkdir -/

theorem traverseMkdir_found (comps : List String) :
    ∀ (node : FsNode) (store : List (List Nat)),
      (∀ c ∈ comps, c ≠ "") →
      ∃ m, findNode comps (traverseMkdir comps node store).1 = some m ∧
        (findNode comps node = none →
          m.kind = .Directory ∧
          (traverseMkdir comps node store).2.getD m.data [] = []) := by
  induction comps with
  | nil =>
      intro node store _
      exact ⟨node, rfl, fun h => Option.noConfusion h⟩
  | cons c rest ih =>
      intro node store hne
      have hc : c ≠ "" := hne c (List.mem_cons_self c rest)
      have hrest : ∀ x ∈ rest, x ≠ "" :=
        fun x hx => hne x (List.mem_cons_of_mem c hx)
      cases hgc : getChild node.children c with
      | some child =>
          obtain ⟨m, h1, h2⟩ := ih child store hrest
          refine ⟨m, ?_, ?_⟩
          · simp only [traverseMkdir, hgc, findNode, if_neg hc,
              FsNode.children_mk]
            rw [getChild_setChild hgc]
            exact h1
          · intro hnone
            rw [findNode, if_neg hc, hgc] at hnone
            have hm := h2 hnone
            simpa [traverseMkdir, hgc] using hm
      | none =>
          cases rest with
          | nil =>
              refine ⟨FsNode.mk .Directory [] store.length, ?_, fun _ => ⟨rfl, ?_⟩⟩
              · simp only [traverseMkdir, hgc, findNode, if_neg hc,
                  FsNode.children_mk]
                rw [getChild_append_self _ hgc]
              · simp only [traverseMkdir, hgc, FsNode.data_mk]
                rw [List.getD_append_right _ _ _ _ (le_refl _)]
                simp
          | cons c2 rest2 =>
              have hc2 : c2 ≠ "" := hrest c2 (List.mem_cons_self _ _)
              have hfreshnone :
                  findNode (c2 :: rest2)
                    (FsNode.mk .Directory [] store.length) = none := by
                rw [findNode, if_neg hc2]
                simp [FsNode.children_mk, getChild]
              obtain ⟨m, h1, h2⟩ :=
                ih (FsNode.mk .Directory [] store.length) (store ++ [[]]) hrest
              have hm := h2 hfreshnone
              refine ⟨m, ?_, fun _ => ?_⟩
              · simp only [traverseMkdir, hgc, findNode, if_neg hc,
                  FsNode.children_mk]
                rw [getChild_append_self _ hgc]
                exact h1
              · simpa [traverseMkdir, hgc] using hm

/-- C5 counterexample: `mkdir` inserts a child for the empty segment of
`"/a//b"` while `exists` skips empty segments, so after `mkdir("/a//b")` the
path does not exist; and `mkdir` on a path already holding a File node keeps
that node, so after `create("/a")` then `mkdir("/a")` metadata reports kind
File, not Directory. -/
theorem C5_mkdir_counterexample :
    memExists (memMkdir initSys "/a//b") "/a//b" = false ∧
    memMetadata (memMkdir (afterCreate initSys "/a") "/a") "/a" =
      some (NodeKind.File, 0) := by
  constructor <;> decide

/-- C5 (amended): `mkdir` never fails (the model is total, mirroring the
always-`Ok` Rust code); for every path none of whose components (after the
leading slash) is empty, `exists` holds afterwards; and when the path did
not resolve before the call, metadata afterwards reports kind Directory and
length 0. -/
theorem C5_mkdir_spec (sys : Sys) (p : String)
    (hne : ∀ c ∈ pathComponents p, c ≠ "") :
    memExists (memMkdir sys p) p = true ∧
    (memExists sys p = false →
      memMetadata (memMkdir sys p) p = some (NodeKind.Directory, 0)) := by
  obtain ⟨m, h1, h2⟩ :=
    traverseMkdir_found (pathComponents p) sys.root sys.store hne
  constructor
  · simp only [memExists, memMkdir, h1, Option.isSome_some]
  · intro hex
    have hnone : findNode (pathComponents p) sys.root = none := by
      cases hfx : findNode (pathComponents p) sys.root with
      | none => rfl
      | some x =>
          rw [memExists, hfx] at hex
          simp at hex
    obtain ⟨hkind, hbuf⟩ := h2 hnone
    simp only [memMetadata, memMkdir, h1, Option.map_some', hkind, hbuf]
    rfl

/-- C5 witness: after `mkdir("/a/b")` on the fresh filesystem, metadata
reports a Directory of length 0. -/
theorem C5_mkdir_spec_witness :
    memMetadata (memMkdir initSys "/a/b") "/a/b" =
      some (NodeKind.Directory, 0) :=
  (C5_mkdir_spec initSys "/a/b" (by decide)).2 (by decide)


/-! ## C9: directory buffers -/

theorem hasKD_of_child {node child : FsNode} {c : String}
    (hgc : getChild node.children c = some child) {k : NodeKind} {i : Nat}
    (h : HasKD child k i) : HasKD node k i := by
  cases node with
  | mk nk cs nd => exact HasKD.there (getChild_mem hgc) h

theorem traverseMkdir_kd (comps : List String) :
    ∀ (node : FsNode) (store : List (List Nat)),
      (∀ k i, HasKD node k i → i < store.length) →
      (∃ ext, (traverseMkdir comps node store).2 = store ++ ext) ∧
      (∀ k i, HasKD (traverseMkdir comps node store).1 k i →
        HasKD node k i ∨
        (k = .Directory ∧ store.length ≤ i ∧
          i < (traverseMkdir comps node store).2.length ∧
          (traverseMkdir comps node store).2.getD i [] = [])) := by
  induction comps with
  | nil =>
      intro node store _
      exact ⟨⟨[], (List.append_nil store).symm⟩, fun k i h => Or.inl h⟩
  | cons c rest ih =>
      intro node store hb
      cases hgc : getChild node.children c with
      | some child =>
          have hbc : ∀ k i, HasKD child k i → i < store.length :=
            fun k i h => hb k i (hasKD_of_child hgc h)
          obtain ⟨⟨ext, hext⟩, hkd⟩ := ih child store hbc
          constructor
          · refine ⟨ext, ?_⟩
            simpa [traverseMkdir, hgc] using hext
          · intro k i h
            simp only [traverseMkdir, hgc] at h ⊢
            cases node with
            | mk nk cs nd =>
                cases h with
                | here => exact Or.inl (HasKD.here nk cs nd)
                | there hmem hkd' =>
                    rcases mem_setChild hmem with hmem' | heq
                    · exact Or.inl (HasKD.there hmem' hkd')
                    · injection heq with heq1 heq2
                      rw [heq2] at hkd'
                      rcases hkd k i hkd' with h' | h'
                      · exact Or.inl (hasKD_of_child hgc h')
                      · exact Or.inr h'
      | none =>
          have hbf : ∀ k i,
              HasKD (FsNode.mk .Directory [] store.length) k i →
                i < (store ++ [[]]).length := by
            intro k i h
            obtain ⟨_, hi⟩ := hasKD_nil h
            subst hi
            simp
          obtain ⟨⟨ext, hext⟩, hkd⟩ :=
            ih (FsNode.mk .Directory [] store.length) (store ++ [[]]) hbf
          constructor
          · refine ⟨[] :: ext, ?_⟩
            simp only [traverseMkdir, hgc]
            rw [hext, List.append_assoc]
            rfl
          · intro k i h
            simp only [traverseMkdir, hgc] at h ⊢
            have hglen : store.length <
                (traverseMkdir rest (FsNode.mk .Directory [] store.length)
                  (store ++ [[]])).2.length := by
              rw [hext]
              simp
            have hgetd :
                (traverseMkdir rest (FsNode.mk .Directory [] store.length)
                  (store ++ [[]])).2.getD store.length [] = [] := by
              rw [hext,
                List.getD_append _ _ _ _ (by simp),
                List.getD_append_right _ _ _ _ (le_refl _)]
              simp
            cases node with
            | mk nk cs nd =>
                cases h with
                | here => exact Or.inl (HasKD.here nk cs nd)
                | there hmem hkd' =>
                    rcases List.mem_append.mp hmem with hmem' | hmem'
                    · exact Or.inl (HasKD.there hmem' hkd')
                    · have heq := List.mem_singleton.mp hmem'
                      injection heq with heq1 heq2
                      rw [heq2] at hkd'
                      rcases hkd k i hkd' with h' | h'
                      · obtain ⟨hk, hi⟩ := hasKD_nil h'
                        subst hi
                        exact Or.inr ⟨hk, le_refl _, hglen, hgetd⟩
                      · obtain ⟨hk, hle, hlt, hgd⟩ := h'
                        exact Or.inr ⟨hk, by simp at hle; omega, hlt, hgd⟩

theorem sysInv_mkdir {sys : Sys} (hI : SysInv sys) (p : String) :
    SysInv (memMkdir sys p) := by
  obtain ⟨hD, hB, hN⟩ := hI
  obtain ⟨⟨ext, hext⟩, hkd⟩ :=
    traverseMkdir_kd (pathComponents p) sys.root sys.store hB
  refine ⟨?_, ?_, ?_⟩
  · intro i h
    show (traverseMkdir (pathComponents p) sys.root sys.store).2.getD i [] = []
    rcases hkd _ _ h with h' | h'
    · rw [hext, List.getD_append _ _ _ _ (hB _ _ h')]
      exact hD i h'
    · exact h'.2.2.2
  · intro k i h
    show i < (traverseMkdir (pathComponents p) sys.root sys.store).2.length
    rcases hkd _ _ h with h' | h'
    · have hlt := hB _ _ h'
      rw [hext]
      simp only [List.length_append]
      omega
    · exact h'.2.2.1
  · intro i hF hDi
    rcases hkd _ _ hF with h1 | h1
    · rcases hkd _ _ hDi with h2 | h2
      · exact hN i h1 h2
      · obtain ⟨_, hle, _, _⟩ := h2
        have hlt := hB _ _ h1
        omega
    · exact absurd h1.1 (by decide)

theorem traverseWith_kd {R : Type} (f : FsNode → FsNode × R) :
    ∀ (comps : List String) (node node' : FsNode) (r : R),
      traverseWith f comps node = some (node', r) →
      ∀ k i, HasKD node' k i →
        HasKD node k i ∨
          ∃ m, findNode comps node = some m ∧ HasKD (f m).1 k i := by
  intro comps
  induction comps with
  | nil =>
      intro node node' r h k i hkd
      injection h with h1
      right
      refine ⟨node, rfl, ?_⟩
      rw [show (f node).1 = node' from congrArg Prod.fst h1]
      exact hkd
  | cons c rest ih =>
      intro node node' r h k i hkd
      by_cases hc : c = ""
      · simp only [traverseWith, if_pos hc] at h
        rcases ih node node' r h k i hkd with h' | h'
        · exact Or.inl h'
        · obtain ⟨m, hm, hf⟩ := h'
          refine Or.inr ⟨m, ?_, hf⟩
          rw [findNode, if_pos hc]
          exact hm
      · cases hgc : getChild node.children c with
        | none =>
            simp only [traverseWith, if_neg hc, hgc] at h
            cases h
        | some child =>
            simp only [traverseWith, if_neg hc, hgc] at h
            cases hrec : traverseWith f rest child with
            | none => rw [hrec] at h; cases h
            | some val =>
                obtain ⟨child', r'⟩ := val
                rw [hrec] at h
                injection h with h1
                injection h1 with h1a h1b
                rw [← h1a] at hkd
                have hfind : findNode (c :: rest) node = findNode rest child := by
                  rw [findNode, if_neg hc, hgc]
                cases node with
                | mk nk cs nd =>
                    cases hkd with
                    | here => exact Or.inl (HasKD.here nk cs nd)
                    | there hmem hkd' =>
                        rcases mem_setChild hmem with hmem' | heq
                        · exact Or.inl (HasKD.there hmem' hkd')
                        · injection heq with heq1 heq2
                          rw [heq2] at hkd'
                          rcases ih child child' r' hrec k i hkd' with h' | h'
                          · exact Or.inl (hasKD_of_child hgc h')
                          · obtain ⟨m, hm, hf⟩ := h'
                            refine Or.inr ⟨m, ?_, hf⟩
                            rw [hfind]
                            exact hm

theorem getOrInsertFile_kd {store : List (List Nat)} {name : String}
    {m : FsNode} {k : NodeKind} {i : Nat}
    (h : HasKD (getOrInsertFile store name m).1 k i) :
    HasKD m k i ∨ (k = .File ∧ i = store.length) := by
  cases hgc : getChild m.children name with
  | some child =>
      simp only [getOrInsertFile, hgc] at h
      exact Or.inl h
  | none =>
      simp only [getOrInsertFile, hgc] at h
      cases m with
      | mk mk2 cs md =>
          cases h with
          | here => exact Or.inl (HasKD.here mk2 cs md)
          | there hmem hkd' =>
              rcases List.mem_append.mp hmem with hmem' | hmem'
              · exact Or.inl (HasKD.there hmem' hkd')
              · have heq := List.mem_singleton.mp hmem'
                injection heq with heq1 heq2
                rw [heq2] at hkd'
                obtain ⟨hk, hi⟩ := hasKD_nil hkd'
                exact Or.inr ⟨hk, hi⟩

theorem sysInv_create {sys sys' : Sys} {p : String} {r : Option MemFile}
    (hI : SysInv sys) (h : memCreate sys p = some (sys', r)) : SysInv sys' := by
  obtain ⟨hD, hB, hN⟩ := hI
  cases hdp : (decomposePath p).1 with
  | none =>
      simp only [memCreate, hdp] at h
      cases h
  | some parentP =>
      cases hfn : findNode (pathComponents parentP) sys.root with
      | none =>
          simp only [memCreate, hdp, traverseWith_none _ hfn] at h
          injection h with h1
          injection h1 with h1a h1b
          rw [← h1a]
          exact ⟨hD, hB, hN⟩
      | some m =>
          obtain ⟨root', htr, hfd⟩ :=
            traverseWith_found
              (getOrInsertFile sys.store (decomposePath p).2) hfn
          cases hgc : getChild m.children (decomposePath p).2 with
          | some child =>
              have hfp : getOrInsertFile sys.store (decomposePath p).2 m =
                  (m, (child.data, sys.store)) := by
                simp only [getOrInsertFile, hgc]
              have hrootkd : ∀ k i, HasKD root' k i → HasKD sys.root k i := by
                intro k i hk
                rcases traverseWith_kd _ _ _ _ _ htr k i hk with h' | h'
                · exact h'
                · obtain ⟨m', hm', hf⟩ := h'
                  rw [hfn] at hm'
                  injection hm' with hm''
                  rw [← hm''] at hf
                  rw [hfp] at hf
                  exact findNode_hasKD hfn hf
              have hlt : child.data < sys.store.length :=
                hB _ _ (findNode_hasKD hfn (hasKD_of_getChild hgc))
              rw [hfp] at htr
              simp only [memCreate, hdp, htr] at h
              injection h with h1
              injection h1 with h1a h1b
              rw [← h1a]
              refine ⟨?_, ?_, ?_⟩
              · intro i hdir
                have hold := hrootkd _ _ hdir
                by_cases hie : i = child.data
                · subst hie
                  simp [List.getD_eq_getElem?_getD, List.getElem?_set_self hlt]
                · have hne : child.data ≠ i := fun he => hie he.symm
                  simp only [List.getD_eq_getElem?_getD,
                    List.getElem?_set_ne hne]
                  have := hD i hold
                  rw [List.getD_eq_getElem?_getD] at this
                  exact this
              · intro k i hk
                have hold := hrootkd _ _ hk
                simp only [List.length_set]
                exact hB _ _ hold
              · intro i hF hDi
                exact hN i (hrootkd _ _ hF) (hrootkd _ _ hDi)
          | none =>
              have hfp : getOrInsertFile sys.store (decomposePath p).2 m =
                  (FsNode.mk m.kind
                    (m.children ++
                      [((decomposePath p).2,
                        FsNode.mk .File [] sys.store.length)]) m.data,
                   (sys.store.length, sys.store ++ [[]])) := by
                simp only [getOrInsertFile, hgc]
              have hrootkd : ∀ k i, HasKD root' k i →
                  HasKD sys.root k i ∨ (k = .File ∧ i = sys.store.length) := by
                intro k i hk
                rcases traverseWith_kd _ _ _ _ _ htr k i hk with h' | h'
                · exact Or.inl h'
                · obtain ⟨m', hm', hf⟩ := h'
                  rw [hfn] at hm'
                  injection hm' with hm''
                  rw [← hm''] at hf
                  rcases getOrInsertFile_kd hf with h2 | h2
                  · exact Or.inl (findNode_hasKD hfn h2)
                  · exact Or.inr h2
              rw [hfp] at htr
              simp only [memCreate, hdp, htr] at h
              injection h with h1
              injection h1 with h1a h1b
              rw [← h1a]
              have hltS : sys.store.length < (sys.store ++ [[]]).length := by simp
              refine ⟨?_, ?_, ?_⟩
              · intro i hdir
                rcases hrootkd _ _ hdir with hold | hnew
                · have hlt := hB _ _ hold
                  have hne : sys.store.length ≠ i := by omega
                  simp only [List.getD_eq_getElem?_getD,
                    List.getElem?_set_ne hne,
                    List.getElem?_append_left hlt]
                  have := hD i hold
                  rw [List.getD_eq_getElem?_getD] at this
                  exact this
                · exact absurd hnew.1 (by decide)
              · intro k i hk
                simp only [List.length_set, List.length_append,
                  List.length_singleton]
                rcases hrootkd _ _ hk with hold | hnew
                · have := hB _ _ hold
                  omega
                · omega
              · intro i hF hDi
                rcases hrootkd _ _ hF with hF' | hF'
                · rcases hrootkd _ _ hDi with hD' | hD'
                  · exact hN i hF' hD'
                  · exact absurd hD'.1 (by decide)
                · rcases hrootkd _ _ hDi with hD' | hD'
                  · have := hB _ _ hD'
                    omega
                  · exact absurd hD'.1 (by decide)

theorem sysInv_append {sys sys' : Sys} {p : String} {r : Option MemFile}
    (hI : SysInv sys) (h : memAppend sys p = some (sys', r)) : SysInv sys' := by
  obtain ⟨hD, hB, hN⟩ := hI
  cases hdp : (decomposePath p).1 with
  | none =>
      simp only [memAppend, hdp] at h
      cases h
  | some parentP =>
      cases hfn : findNode (pathComponents parentP) sys.root with
      | none =>
          simp only [memAppend, hdp, traverseWith_none _ hfn] at h
          injection h with h1
          injection h1 with h1a h1b
          rw [← h1a]
          exact ⟨hD, hB, hN⟩
      | some m =>
          obtain ⟨root', htr, hfd⟩ :=
            traverseWith_found
              (getOrInsertFile sys.store (decomposePath p).2) hfn
          cases hgc : getChild m.children (decomposePath p).2 with
          | some child =>
              have hfp : getOrInsertFile sys.store (decomposePath p).2 m =
                  (m, (child.data, sys.store)) := by
                simp only [getOrInsertFile, hgc]
              have hrootkd : ∀ k i, HasKD root' k i → HasKD sys.root k i := by
                intro k i hk
                rcases traverseWith_kd _ _ _ _ _ htr k i hk with h' | h'
                · exact h'
                · obtain ⟨m', hm', hf⟩ := h'
                  rw [hfn] at hm'
                  injection hm' with hm''
                  rw [← hm''] at hf
                  rw [hfp] at hf
                  exact findNode_hasKD hfn hf
              rw [hfp] at htr
              simp only [memAppend, hdp, htr] at h
              injection h with h1
              injection h1 with h1a h1b
              rw [← h1a]
              exact ⟨fun i hdir => hD i (hrootkd _ _ hdir),
                fun k i hk => hB _ _ (hrootkd _ _ hk),
                fun i hF hDi => hN i (hrootkd _ _ hF) (hrootkd _ _ hDi)⟩
          | none =>
              have hfp : getOrInsertFile sys.store (decomposePath p).2 m =
                  (FsNode.mk m.kind
                    (m.children ++
                      [((decomposePath p).2,
                        FsNode.mk .File [] sys.store.length)]) m.data,
                   (sys.store.length, sys.store ++ [[]])) := by
                simp only [getOrInsertFile, hgc]
              have hrootkd : ∀ k i, HasKD root' k i →
                  HasKD sys.root k i ∨ (k = .File ∧ i = sys.store.length) := by
                intro k i hk
                rcases traverseWith_kd _ _ _ _ _ htr k i hk with h' | h'
                · exact Or.inl h'
                · obtain ⟨m', hm', hf⟩ := h'
                  rw [hfn] at hm'
                  injection hm' with hm''
                  rw [← hm''] at hf
                  rcases getOrInsertFile_kd hf with h2 | h2
                  · exact Or.inl (findNode_hasKD hfn h2)
                  · exact Or.inr h2
              rw [hfp] at htr
              simp only [memAppend, hdp, htr] at h
              injection h with h1
              injection h1 with h1a h1b
              rw [← h1a]
              refine ⟨?_, ?_, ?_⟩
              · intro i hdir
                rcases hrootkd _ _ hdir with hold | hnew
                · have hlt := hB _ _ hold
                  rw [List.getD_append _ _ _ _ hlt]
                  exact hD i hold
                · exact absurd hnew.1 (by decide)
              · intro k i hk
                simp only [List.length_append, List.length_singleton]
                rcases hrootkd _ _ hk with hold | hnew
                · have := hB _ _ hold
                  omega
                · omega
              · intro i hF hDi
                rcases hrootkd _ _ hF with hF' | hF'
                · rcases hrootkd _ _ hDi with hD' | hD'
                  · exact hN i hF' hD'
                  · exact absurd hD'.1 (by decide)
                · rcases hrootkd _ _ hDi with hD' | hD'
                  · have := hB _ _ hD'
                    omega
                  · exact absurd hD'.1 (by decide)

theorem sysInv_write {sys : Sys} {hdl : MemFile} {buf : List Nat}
    (hI : SysInv sys) (hF : HasKD sys.root .File hdl.data) :
    SysInv (sysWrite sys hdl buf).1 := by
  obtain ⟨hD, hB, hN⟩ := hI
  refine ⟨?_, ?_, ?_⟩
  · intro i hdir
    have hdir' : HasKD sys.root .Directory i := hdir
    have hne : hdl.data ≠ i := fun he => hN hdl.data hF (he ▸ hdir')
    show (sys.store.set hdl.data _).getD i [] = []
    simp only [List.getD_eq_getElem?_getD, List.getElem?_set_ne hne]
    have := hD i hdir'
    rw [List.getD_eq_getElem?_getD] at this
    exact this
  · intro k i hk
    show i < (sys.store.set hdl.data _).length
    simp only [List.length_set]
    exact hB _ _ hk
  · intro i hF2 hD2
    exact hN i hF2 hD2

theorem sysInv_init : SysInv initSys := by
  refine ⟨?_, ?_, ?_⟩
  · intro i h
    obtain ⟨_, hi⟩ := hasKD_nil h
    subst hi
    rfl
  · intro k i h
    obtain ⟨_, hi⟩ := hasKD_nil h
    subst hi
    decide
  · intro i hF hDi
    obtain ⟨hk, _⟩ := hasKD_nil hF
    exact absurd hk (by decide)

theorem sysInv_reach {cfg : Sys × List MemFile}
    (h : Relation.ReflTransGen GStep initConfig cfg) : SysInv cfg.1 := by
  induction h with
  | refl => exact sysInv_init
  | tail hsteps hstep ih =>
      cases hstep with
      | mkdirStep sys hs p => exact sysInv_mkdir ih p
      | openStep sys hs p hdl ho => exact ih
      | createStep sys hs p sys2 r hc => exact sysInv_create ih hc
      | appendStep sys hs p sys2 r hc => exact sysInv_append ih hc
      | writeStep sys hs i buf hlt hF => exact sysInv_write ih hF
      | readStep sys hs i cap out hlt hr => exact ih
      | seekStep sys hs i sf hlt => exact ih

/-- C9 counterexample: the invariant "every Directory buffer is empty" does
not hold in all states reachable by public operations: `open("/")` hands out
a handle on the root Directory's buffer, and one write through it makes the
root directory's buffer nonempty. -/
theorem C9_dir_empty_counterexample :
    ¬ (∀ (sys : Sys) (hs : List MemFile),
        Relation.ReflTransGen Step initConfig (sys, hs) →
        ∀ i, HasKD sys.root NodeKind.Directory i →
          sys.store.getD i [] = []) := by
  intro hclaim
  have hopen : memOpen initSys "/" = some (MemFile.mk 0 0) := rfl
  have s1 : Step initConfig (initSys, [MemFile.mk 0 0]) :=
    Step.openStep initSys [] "/" (MemFile.mk 0 0) hopen
  have s2 : Step (initSys, [MemFile.mk 0 0])
      ((sysWrite initSys (MemFile.mk 0 0) [1]).1,
        [MemFile.mk 0 0].set 0 (sysWrite initSys (MemFile.mk 0 0) [1]).2) :=
    Step.writeStep initSys [MemFile.mk 0 0] 0 [1] (by decide)
  have hreach := Relation.ReflTransGen.tail
    (Relation.ReflTransGen.tail (Relation.ReflTransGen.refl) s1) s2
  have hbad := hclaim _ _ hreach 0 (HasKD.here NodeKind.Directory [] 0)
  exact absurd hbad (by decide)

/-- C9 (amended): in every state reachable by public operations in which
every write goes through a handle whose buffer belongs to a File node, every
Directory node's buffer has length 0, and metadata on any directory path
reports length 0. -/
theorem C9_dir_empty (sys : Sys) (hs : List MemFile)
    (h : Relation.ReflTransGen GStep initConfig (sys, hs)) :
    (∀ i, HasKD sys.root NodeKind.Directory i → sys.store.getD i [] = []) ∧
    (∀ p L, memMetadata sys p = some (NodeKind.Directory, L) → L = 0) := by
  have hI := sysInv_reach h
  refine ⟨hI.1, ?_⟩
  intro p L hm
  rw [memMetadata] at hm
  cases hfn : findNode (pathComponents p) sys.root with
  | none => rw [hfn] at hm; cases hm
  | some m =>
      rw [hfn] at hm
      simp only [Option.map_some'] at hm
      injection hm with hpair
      have hk : m.kind = NodeKind.Directory := congrArg Prod.fst hpair
      have hL : (sys.store.getD m.data []).length = L := congrArg Prod.snd hpair
      have hkd : HasKD sys.root NodeKind.Directory m.data := by
        rw [← hk]
        exact findNode_hasKD hfn (hasKD_self m)
      rw [hI.1 m.data hkd] at hL
      exact hL.symm

/-- C9 witness: the amended invariant at the initial state (reached by the
empty run): the root directory's buffer is empty. -/
theorem C9_dir_empty_witness : initSys.store.getD 0 [] = [] :=
  (C9_dir_empty initSys [] Relation.ReflTransGen.refl).1 0
    (HasKD.here NodeKind.Directory [] 0)
